import Mathlib

/-!
Shallow embedding of `src/base/layer.rs` from the stack-db repository.

The repository source provides `Layer` (collision analysis, unchecked
read/write, flush, load) in `src/base/layer.rs`.  The `mapper` submodule and
the `errors` module are not part of the provided sources, so the `Mapper`
storage primitives (heap collection + write cursor, disk variant, the
`get_writer` / `insert` / `iter` contract) and the error enumeration are
modelled from the specification (sections 4.1, 7 of the spec); everything
else is translated directly from `layer.rs`.

Machine integers (`u64`, `usize`) are modelled as `Nat`: no operation in the
translated code can overflow on the inputs the claims quantify over, and the
unchecked subtractions of the source are mirrored by truncated `Nat`
subtraction (claim C10 is precisely about those subtractions not
underflowing).  Byte buffers are `List Nat`, streams are a list of bytes plus
an explicit cursor/op-counter state.
-/

/-- Modelled from the spec (the `errors` module is not in `src/`): the error
taxonomy of section 7 — corruption wrapping a cause, out-of-bounds reads,
read-only (disk-backed) write rejection, and an opaque I/O failure from the
persistent resource. `layer.rs` names `Error::DBCorrupt`, `Error::InvalidLayer`
and `Error::OutOfBounds` directly. -/
inductive Error where
  | DBCorrupt (inner : Error)
  | InvalidLayer
  | OutOfBounds
  | ReadOnly
  | Io
deriving Repr, DecidableEq

/-- `Range<u64>` / `Range<usize>` of the source; `stop` stands for the Rust
field `end`, which is a Lean keyword.  Half-open interval `[start, stop)`. -/
structure URange where
  start : Nat
  stop : Nat
deriving Repr, DecidableEq

/-- Membership in a half-open range. -/
def URange.mem (r : URange) (x : Nat) : Prop := r.start ≤ x ∧ x < r.stop

instance (r : URange) (x : Nat) : Decidable (r.mem x) := by
  unfold URange.mem; infer_instance

/-- `pub type Section<'l> = (Range<u64>, Cow<'l, [u8]>);` -/
abbrev LSection := URange × List Nat

/-- Modelled from the spec (the `mapper` submodule is not in `src/`):
a `Mapper` is either heap-backed — an ordered collection of sections plus the
write cursor `(next_expected_address, insertion_index)` — or disk-backed with
no resident sections (spec section 4.1, and `Mapper::Disk` / `Mapper::Heap
\x7b mapper, .. \x7d` as matched in `layer.rs`). -/
inductive Mapper where
  | Heap (sections : List LSection) (writeCursor : Nat × Nat)
  | Disk
deriving Repr, DecidableEq

/-- Modelled from the spec: a fresh mapper is heap-backed and empty
(`Mapper::new()` in `Layer::new`); the write cursor starts at `(0, 0)`. -/
def Mapper.new : Mapper := .Heap [] (0, 0)

/-- Big-endian bytes of a `u64` (`u64::to_be_bytes`). -/
def be64 (n : Nat) : List Nat :=
  [n / 2 ^ 56 % 256, n / 2 ^ 48 % 256, n / 2 ^ 40 % 256, n / 2 ^ 32 % 256,
   n / 2 ^ 24 % 256, n / 2 ^ 16 % 256, n / 2 ^ 8 % 256, n % 256]

/-- Value of a big-endian byte buffer (`u64::from_be_bytes`). -/
def be64val (bytes : List Nat) : Nat :=
  bytes.foldl (fun acc b => acc * 256 + b) 0

/-- `get_u64` of `layer.rs`: grab the big-endian `u64` at `buffer[lo..hi]`;
`buffer.get(range)` is `none` (here: corruption error) unless
`lo ≤ hi ≤ buffer.length`, and the `try_into` to `[u8; 8]` fails unless the
slice has length 8. -/
def get_u64 (buffer : List Nat) (lo hi : Nat) : Except Error Nat :=
  if lo ≤ hi ∧ hi ≤ buffer.length ∧ hi - lo = 8 then
    .ok (be64val ((buffer.take hi).drop lo))
  else
    .error (.DBCorrupt (.InvalidLayer))

/-- `pub const REWIND_IDX: u64 = 8 + 8 + 8;` -/
def REWIND_IDX : Nat := 8 + 8 + 8

/-- Modelled from the spec (the `mapper` submodule is not in `src/`): disk
iteration parses sequential `(start, stop, payload)` records — `start` and
`stop` as 8-byte big-endian integers, then `stop - start` payload bytes —
stopping once the declared cumulative payload size is consumed; a short or
malformed read surfaces as a corruption failure (spec section 4.1). -/
def diskParse (size : Nat) (bytes : List Nat) : Except Error (List LSection) :=
  if size = 0 then .ok []
  else if bytes.length < 16 then .error (.DBCorrupt .InvalidLayer)
  else
    let start := be64val (bytes.take 8)
    let stop := be64val ((bytes.drop 8).take 8)
    let len := stop - start
    if bytes.length < 16 + len then .error (.DBCorrupt .InvalidLayer)
    else
      match diskParse (size - len) (bytes.drop (16 + len)) with
      | .error e => .error e
      | .ok rest => .ok ((⟨start, stop⟩, (bytes.drop 16).take len) :: rest)
termination_by bytes.length
decreasing_by simp only [List.length_drop]; omega

/-- Modelled from the spec (the `mapper` submodule is not in `src/`):
`Mapper::iter(stream, size, header_offset)` — the heap variant yields the
resident sections in stored order; the disk variant scans the stream from
`header_offset` (spec section 4.1).  The stream is passed as its byte
contents. -/
def Mapper.iter (m : Mapper) (stream : List Nat) (size : Nat)
    (headerOffset : Nat) : Except Error (List LSection) :=
  match m with
  | .Heap sections _ => .ok sections
  | .Disk => diskParse size (stream.drop headerOffset)

/-- The `Layer` struct of `layer.rs` (its `stream` field — the persistent
resource handle — is modelled as a separate explicit argument to the
operations that touch it, so that the bookkeeping state stays first-order). -/
structure Layer where
  bounds : Option URange
  mapper : Mapper
  size : Nat
  read_cursor : Nat × Nat
deriving Repr, DecidableEq

/-- `Layer::new`. -/
def Layer.new : Layer :=
  { bounds := none, mapper := Mapper.new, size := 0, read_cursor := (0, 0) }

/-- `Layer::load`: read exactly the 24-byte header (`read_exact` on a
24-byte buffer fails — corruption — when the stream holds fewer bytes), then
decode `size`, `bounds.start`, `bounds.end` via `get_u64` and return a
disk-backed layer.  The stream is given as its byte contents, read from the
start. -/
def Layer.load (bytes : List Nat) : Except Error Layer :=
  let buffer := bytes.take 24
  if buffer.length < 24 then .error (.DBCorrupt .InvalidLayer)
  else do
    let size ← get_u64 buffer 0 8
    let bstart ← get_u64 buffer 8 16
    let bstop ← get_u64 buffer 16 24
    .ok { bounds := some ⟨bstart, bstop⟩, mapper := .Disk, size,
          read_cursor := (0, 0) }

/-- The overlap filter of `Layer::check_collisions`:
`range.start < r.end && r.start < range.end`. -/
def collides (range r : URange) : Bool :=
  decide (range.start < r.stop ∧ r.start < range.stop)

/-- `Layer::check_collisions` (`&mut self` is mirrored by returning the
layer alongside the result).  Fast-rejects when the query misses `bounds`,
otherwise filters the iterated sections by the half-open overlap test and
maps each to its intersection with the query.  The `scan(until_err)` /
`err?` error plumbing of the source is subsumed by the `Except` result of
`Mapper.iter` (heap iteration never fails; a disk parse error aborts the
whole collection there as here). -/
def Layer.check_collisions (L : Layer) (stream : List Nat) (range : URange) :
    Layer × Except Error (List URange) :=
  match L.bounds with
  | none => (L, .ok [])
  | some bounds =>
    if bounds.stop < range.start ∨ range.stop < bounds.start then (L, .ok [])
    else
      match L.mapper.iter stream L.size REWIND_IDX with
      | .error e => (L, .error e)
      | .ok secs =>
        (L, .ok ((secs.filter (fun s => collides range s.1)).map
          (fun s => ⟨max range.start s.1.start, min range.stop s.1.stop⟩)))

/-- The sweep loop of `Layer::check_non_collisions`: walk the collisions
tracking `last_end`, emitting `last_end..collision.start` whenever the
collision starts past `last_end`, then the trailing gap `last_end..range.end`
when `last_end != range.end`. -/
def sweepGaps (rend : Nat) : Nat → List URange → List URange
  | last, [] => if last ≠ rend then [⟨last, rend⟩] else []
  | last, c :: cs =>
    if c.start > last then ⟨last, c.start⟩ :: sweepGaps rend c.stop cs
    else sweepGaps rend c.stop cs

/-- `Layer::check_non_collisions` (takes `&self`; the body reads no field of
`self`, which the unused layer argument mirrors). -/
def Layer.check_non_collisions (_L : Layer) (range : URange)
    (collisions : List URange) : List URange :=
  sweepGaps range.stop range.start collisions

/-- `Layer::read_unchecked` (`&mut self` mirrored by returning the layer):
find the first section fully containing `addr` and return the relative range
within it together with its payload, or an out-of-bounds error. -/
def Layer.read_unchecked (L : Layer) (stream : List Nat) (addr : URange) :
    Layer × Except Error (URange × List Nat) :=
  match L.mapper.iter stream L.size REWIND_IDX with
  | .error e => (L, .error e)
  | .ok secs =>
    match secs.find? (fun s => decide (s.1.start ≤ addr.start ∧ addr.stop ≤ s.1.stop)) with
    | some (r, x) => (L, .ok (⟨addr.start - r.start, addr.stop - r.start⟩, x))
    | none => (L, .error .OutOfBounds)

/-- `Layer::write_unchecked`.  `get_writer` (modelled from the spec: fails
with the read-only error when disk-backed, otherwise exposes the heap
collection and write cursor) gates the write; the insertion index is the
cached cursor index when the cursor address matches, otherwise the index of
the first section whose start exceeds `idx`, defaulting to 0 when the scan
finds none (`unwrap_or(0)` in the source); `insert` (modelled from the spec:
plain insertion at the caller-supplied index) places the section, then
cursor, size and bounds are updated. -/
def Layer.write_unchecked (L : Layer) (idx : Nat) (data : List Nat) :
    Except Error Layer :=
  match L.mapper with
  | .Disk => .error .ReadOnly
  | .Heap sections writeCursor =>
    let range : URange := ⟨idx, idx + data.length⟩
    let map_idx :=
      if writeCursor.1 = idx then writeCursor.2
      else
        match sections.findIdx? (fun s => decide (idx < s.1.start)) with
        | some i => i
        | none => 0
    .ok { bounds := some (match L.bounds with
            | some x => ⟨min x.start range.start, max x.stop range.stop⟩
            | none => range),
          mapper := .Heap (sections.insertIdx map_idx (range, data))
            (range.stop, map_idx + 1),
          size := L.size + (range.stop - range.start),
          read_cursor := L.read_cursor }

/-- The persistent resource: byte contents, a seek position, an operation
counter, and a fault model — the operation numbered `failAt` (and every
later one, since the counter then stops advancing) fails. -/
structure MStream where
  data : List Nat
  pos : Nat
  ops : Nat
  failAt : Option Nat
deriving Repr, DecidableEq

/-- Overwrite `bytes` into `data` at `pos` (zero-padding if `pos` is past
the end), as a sequence of `write_all` calls on a seekable resource does. -/
def overwriteAt (data : List Nat) (pos : Nat) (bytes : List Nat) : List Nat :=
  data.take pos ++ List.replicate (pos - data.length) 0 ++ bytes
    ++ data.drop (pos + bytes.length)

/-- `write_all`: append at the cursor, or fail per the fault model. -/
def MStream.writeAll (s : MStream) (bytes : List Nat) : Except Error MStream :=
  if s.failAt = some s.ops then .error .Io
  else .ok { data := overwriteAt s.data s.pos bytes,
             pos := s.pos + bytes.length, ops := s.ops + 1, failAt := s.failAt }

/-- `rewind`: seek to the start, or fail per the fault model. -/
def MStream.rewind (s : MStream) : Except Error MStream :=
  if s.failAt = some s.ops then .error .Io
  else .ok { s with pos := 0, ops := s.ops + 1 }

/-- The final `flush` on the buffered writer: drains the buffer (no visible
data effect in this model, where writes land immediately), or fails. -/
def MStream.flushBuf (s : MStream) : Except Error MStream :=
  if s.failAt = some s.ops then .error .Io
  else .ok { s with ops := s.ops + 1 }

/-- Run a sequence of `write_all` calls, stopping at the first failure. -/
def writeChunks : MStream → List (List Nat) → Except Error MStream
  | s, [] => .ok s
  | s, c :: cs =>
    match s.writeAll c with
    | .error e => .error e
    | .ok s1 => writeChunks s1 cs

/-- The chunks `Layer::flush` writes: the three header fields, then per
section its range bounds and payload, each an individual `write_all`. -/
def flushChunks (size : Nat) (b : URange) (secs : List LSection) :
    List (List Nat) :=
  [be64 size, be64 b.start, be64 b.stop]
    ++ (secs.map (fun sec => [be64 sec.1.start, be64 sec.1.stop, sec.2])).flatten

/-- `Layer::flush`: a no-op on an empty (`bounds` none) or disk-backed
layer; otherwise rewind, write the header and every section in stored
order, drain the buffer, and only then switch the mapper to disk mode.  Any
failure returns the error with the layer untouched (every `?` early-return
of the source precedes the mapper assignment). -/
def Layer.flush (L : Layer) (s : MStream) : Layer × Except Error MStream :=
  match L.bounds, L.mapper with
  | some b, .Heap secs _wc =>
    (match s.rewind with
     | .error e => (L, .error e)
     | .ok s0 =>
       match writeChunks s0 (flushChunks L.size b secs) with
       | .error e => (L, .error e)
       | .ok s1 =>
         match s1.flushBuf with
         | .error e => (L, .error e)
         | .ok s2 => ({ L with mapper := .Disk }, .ok s2))
  | _, _ => (L, .ok s)

/-- A sequence of `write_unchecked` calls (each call's result replaces the
layer when it succeeds; on a heap layer every call succeeds). -/
def applyWrites : Layer → List (Nat × List Nat) → Layer
  | L, [] => L
  | L, w :: ws =>
    match L.write_unchecked w.1 w.2 with
    | .ok L2 => applyWrites L2 ws
    | .error _ => applyWrites L ws

/-! ## Helper notions for the collision-complement proofs -/

/-- A collision list is well-formed past the address `last` within an
interval ending at `rend`: each element is a proper range, ends by `rend`,
and starts at or after the previous end (sorted, non-overlapping). -/
def okColls (rend : Nat) : Nat → List URange → Prop
  | _, [] => True
  | last, c :: cs => last ≤ c.start ∧ c.start ≤ c.stop ∧ c.stop ≤ rend ∧
      okColls rend c.stop cs

theorem okColls_mono {rend a b : Nat} {cs : List URange}
    (hab : a ≤ b) (h : okColls rend b cs) : okColls rend a cs := by
  cases cs with
  | nil => trivial
  | cons c cs => exact ⟨le_trans hab h.1, h.2.1, h.2.2.1, h.2.2.2⟩

theorem okColls_mem {rend : Nat} {cs : List URange} :
    ∀ {last : Nat}, okColls rend last cs →
      ∀ c ∈ cs, last ≤ c.start ∧ c.start ≤ c.stop ∧ c.stop ≤ rend := by
  induction cs with
  | nil => intro last _ c hc; simp at hc
  | cons c0 cs ih =>
    intro last h c hc
    obtain ⟨h1, h2, h3, h4⟩ := h
    rcases List.mem_cons.mp hc with rfl | hc2
    · exact ⟨h1, h2, h3⟩
    · have h5 := ih h4 c hc2
      exact ⟨le_trans h1 (le_trans h2 h5.1), h5.2⟩

theorem okColls_pairwise {rend : Nat} {cs : List URange} :
    ∀ {last : Nat}, okColls rend last cs →
      List.Pairwise (fun a b : URange => ∀ x, a.mem x → b.mem x → False) cs := by
  induction cs with
  | nil => intro _ _; exact List.Pairwise.nil
  | cons c0 cs ih =>
    intro last h
    obtain ⟨_, _, _, h4⟩ := h
    refine List.pairwise_cons.mpr ⟨?_, ih h4⟩
    intro b hb x hx hbx
    have h5 := okColls_mem h4 b hb
    simp only [URange.mem] at hx hbx
    omega

theorem sweepGaps_ok {rend : Nat} {cs : List URange} :
    ∀ {last : Nat}, okColls rend last cs → last ≤ rend →
      okColls rend last (sweepGaps rend last cs) := by
  induction cs with
  | nil =>
    intro last _ hle
    unfold sweepGaps
    split
    · exact ⟨le_refl _, hle, le_refl _, trivial⟩
    · trivial
  | cons c0 cs ih =>
    intro last h hle
    obtain ⟨h1, h2, h3, h4⟩ := h
    unfold sweepGaps
    split
    · exact ⟨le_refl _, h1, le_trans h2 h3,
        okColls_mono h2 (ih h4 h3)⟩
    · exact okColls_mono (le_trans h1 h2) (ih h4 h3)

theorem sweepGaps_union {rend : Nat} {cs : List URange} :
    ∀ {last : Nat}, okColls rend last cs → last ≤ rend →
      ∀ x : Nat, ((∃ c ∈ cs, URange.mem c x) ∨
          (∃ n ∈ sweepGaps rend last cs, URange.mem n x)) ↔
        (last ≤ x ∧ x < rend) := by
  induction cs with
  | nil =>
    intro last _ hle x
    unfold sweepGaps
    split
    next hne =>
      simp only [List.not_mem_nil, false_and, exists_false, false_or,
        List.exists_mem_cons_iff, or_false]
      simp only [URange.mem]
    next hne =>
      rw [ne_eq, not_not] at hne
      subst hne
      simp only [List.not_mem_nil, false_and, exists_false, false_or,
        false_iff]
      omega
  | cons c0 cs ih =>
    intro last h hle x
    obtain ⟨h1, h2, h3, h4⟩ := h
    have ihx := ih h4 h3 x
    unfold sweepGaps
    split
    · rw [List.exists_mem_cons_iff, List.exists_mem_cons_iff]
      simp only [URange.mem]
      simp only [URange.mem] at ihx
      constructor
      · intro hcase
        rcases hcase with (hc0 | hcs) | (hgap | hsw)
        · omega
        · have := ihx.mp (Or.inl hcs); omega
        · omega
        · have := ihx.mp (Or.inr hsw); omega
      · intro hx
        by_cases hlt : x < c0.start
        · exact Or.inr (Or.inl ⟨by omega, hlt⟩)
        · by_cases hmid : x < c0.stop
          · exact Or.inl (Or.inl ⟨by omega, hmid⟩)
          · rcases ihx.mpr (by omega) with hcs | hsw
            · exact Or.inl (Or.inr hcs)
            · exact Or.inr (Or.inr hsw)
    · rw [List.exists_mem_cons_iff]
      simp only [URange.mem]
      simp only [URange.mem] at ihx
      constructor
      · intro hcase
        rcases hcase with (hc0 | hcs) | hsw
        · omega
        · have := ihx.mp (Or.inl hcs); omega
        · have := ihx.mp (Or.inr hsw); omega
      · intro hx
        by_cases hmid : x < c0.stop
        · exact Or.inl (Or.inl ⟨by omega, hmid⟩)
        · rcases ihx.mpr (by omega) with hcs | hsw
          · exact Or.inl (Or.inr hcs)
          · exact Or.inr hsw

theorem sweepGaps_cross {rend : Nat} {cs : List URange} :
    ∀ {last : Nat}, okColls rend last cs → last ≤ rend →
      ∀ c ∈ cs, ∀ n ∈ sweepGaps rend last cs,
        ∀ x, URange.mem c x → URange.mem n x → False := by
  induction cs with
  | nil => intro last _ _ c hc; simp at hc
  | cons c0 cs ih =>
    intro last h hle c hc n hn x hcx hnx
    obtain ⟨h1, h2, h3, h4⟩ := h
    unfold sweepGaps at hn
    rcases List.mem_cons.mp hc with rfl | hc2
    · split at hn
      · rcases List.mem_cons.mp hn with rfl | hn2
        · simp only [URange.mem] at hcx hnx; omega
        · have h5 := okColls_mem (sweepGaps_ok h4 h3) n hn2
          simp only [URange.mem] at hcx hnx; omega
      · have h5 := okColls_mem (sweepGaps_ok h4 h3) n hn
        simp only [URange.mem] at hcx hnx; omega
    · have h6 := okColls_mem h4 c hc2
      split at hn
      · rcases List.mem_cons.mp hn with rfl | hn2
        · simp only [URange.mem] at hcx hnx; omega
        · exact ih h4 h3 c hc2 n hn2 x hcx hnx
      · exact ih h4 h3 c hc2 n hn x hcx hnx

theorem clamp_okColls (R : URange) (hR : R.start ≤ R.stop) :
    ∀ (l : List LSection), (∀ s ∈ l, s.1.start ≤ s.1.stop) →
      (∀ s ∈ l, collides R s.1 = true) →
      List.Pairwise (fun a b : LSection => a.1.stop ≤ b.1.start) l →
      ∀ last : Nat, (∀ s ∈ l, last ≤ max R.start s.1.start) →
      okColls R.stop last
        (l.map (fun s => ⟨max R.start s.1.start, min R.stop s.1.stop⟩)) := by
  intro l
  induction l with
  | nil => intro _ _ _ _ _; trivial
  | cons s l ih =>
    intro hproper hov hpw last hlast
    have hs := hov s (List.mem_cons_self s l)
    simp only [collides, decide_eq_true_eq] at hs
    have hsp := hproper s (List.mem_cons_self s l)
    obtain ⟨hpw1, hpw2⟩ := List.pairwise_cons.mp hpw
    simp only [List.map_cons]
    refine ⟨hlast s (List.mem_cons_self s l),
      show max R.start s.1.start ≤ min R.stop s.1.stop by omega,
      show min R.stop s.1.stop ≤ R.stop by omega, ?_⟩
    refine ih (fun a ha => hproper a (List.mem_cons_of_mem s ha))
      (fun a ha => hov a (List.mem_cons_of_mem s ha)) hpw2 _ ?_
    intro a ha
    have := hpw1 a ha
    show min R.stop s.1.stop ≤ max R.start a.1.start
    omega

theorem check_collisions_okColls (L : Layer) (secs : List LSection)
    (wc : Nat × Nat) (hm : L.mapper = .Heap secs wc)
    (hproper : ∀ s ∈ secs, s.1.start ≤ s.1.stop)
    (hsorted : List.Pairwise (fun a b : LSection => a.1.stop ≤ b.1.start) secs)
    (stream : List Nat) (R : URange) (hR : R.start ≤ R.stop)
    (cs : List URange) (hcs : (L.check_collisions stream R).2 = .ok cs) :
    okColls R.stop R.start cs := by
  unfold Layer.check_collisions at hcs
  cases hb : L.bounds with
  | none =>
    rw [hb] at hcs
    simp only [Except.ok.injEq] at hcs
    subst hcs
    trivial
  | some b =>
    rw [hb] at hcs
    simp only at hcs
    split at hcs
    · simp only [Except.ok.injEq] at hcs
      subst hcs
      trivial
    · rw [hm] at hcs
      simp only [Mapper.iter, Except.ok.injEq] at hcs
      subst hcs
      refine clamp_okColls R hR (secs.filter (fun s => collides R s.1))
        ?_ ?_ (List.Pairwise.sublist (List.filter_sublist secs) hsorted)
        R.start ?_
      · intro s hs
        exact hproper s (List.mem_filter.mp hs).1
      · intro s hs
        exact (List.mem_filter.mp hs).2
      · intro s _
        exact le_max_left _ _

/-- C2: over a heap-backed layer whose sections are proper ranges, sorted
ascending and pairwise non-overlapping (each section ends at or before the
next begins), whenever `check_collisions R` succeeds with `cs`, the union of
`cs` with `check_non_collisions R cs` covers exactly the addresses of `R`,
all these sub-ranges are mutually disjoint, and every one of them is
contained in `R`: no overlap and no gap. -/
theorem check_collisions_complementarity (L : Layer) (secs : List LSection)
    (wc : Nat × Nat) (hm : L.mapper = .Heap secs wc)
    (hproper : ∀ s ∈ secs, s.1.start ≤ s.1.stop)
    (hsorted : List.Pairwise (fun a b : LSection => a.1.stop ≤ b.1.start) secs)
    (stream : List Nat) (R : URange) (hR : R.start ≤ R.stop)
    (cs : List URange) (hcs : (L.check_collisions stream R).2 = .ok cs) :
    (∀ x : Nat, ((∃ c ∈ cs, URange.mem c x) ∨
        (∃ n ∈ L.check_non_collisions R cs, URange.mem n x)) ↔
      URange.mem R x) ∧
    List.Pairwise
      (fun a b : URange => ∀ x, URange.mem a x → URange.mem b x → False)
      (cs ++ L.check_non_collisions R cs) ∧
    (∀ r ∈ cs ++ L.check_non_collisions R cs,
      R.start ≤ r.start ∧ r.stop ≤ R.stop) := by
  have hok := check_collisions_okColls L secs wc hm hproper hsorted stream R hR
    cs hcs
  have hok2 := sweepGaps_ok hok hR
  refine ⟨?_, ?_, ?_⟩
  · intro x
    have := sweepGaps_union hok hR x
    simp only [URange.mem] at this ⊢
    exact this
  · exact List.pairwise_append.mpr
      ⟨okColls_pairwise hok, okColls_pairwise hok2, sweepGaps_cross hok hR⟩
  · intro r hr
    rcases List.mem_append.mp hr with hr2 | hr2
    · have := okColls_mem hok r hr2
      exact ⟨this.1, this.2.2⟩
    · have := okColls_mem hok2 r hr2
      exact ⟨this.1, this.2.2⟩

theorem read_unchecked_heap (L : Layer) (secs : List LSection)
    (wc : Nat × Nat) (hm : L.mapper = .Heap secs wc) (stream : List Nat)
    (addr : URange) :
    L.read_unchecked stream addr =
      match secs.find? (fun s =>
          decide (s.1.start ≤ addr.start ∧ addr.stop ≤ s.1.stop)) with
      | some (r, x) =>
        (L, .ok (⟨addr.start - r.start, addr.stop - r.start⟩, x))
      | none => (L, .error .OutOfBounds) := by
  unfold Layer.read_unchecked
  rw [hm]
  rfl

/-- C3: on a heap-backed layer, a read of the range `addr = [a,b)` succeeds
exactly when some stored section fully contains it; on success the returned
payload is that section's data and the returned relative range is
`(a - section.start)..(b - section.start)`, so slicing the returned data by
the relative range yields precisely the section bytes covering `[a,b)`;
otherwise the read fails with the out-of-bounds error. -/
theorem read_unchecked_spec (L : Layer) (secs : List LSection)
    (wc : Nat × Nat) (hm : L.mapper = .Heap secs wc) (stream : List Nat)
    (addr : URange) (hab : addr.start ≤ addr.stop) :
    (∀ (rel : URange) (d : List Nat),
      (L.read_unchecked stream addr).2 = .ok (rel, d) →
      ∃ r : URange, ∃ d0 : List Nat, (r, d0) ∈ secs ∧
        r.start ≤ addr.start ∧ addr.stop ≤ r.stop ∧ d = d0 ∧
        rel = ⟨addr.start - r.start, addr.stop - r.start⟩ ∧
        (d.drop rel.start).take (rel.stop - rel.start)
          = (d0.drop (addr.start - r.start)).take (addr.stop - addr.start)) ∧
    ((∃ s ∈ secs, s.1.start ≤ addr.start ∧ addr.stop ≤ s.1.stop) ↔
      ∃ out, (L.read_unchecked stream addr).2 = .ok out) ∧
    ((∀ s ∈ secs, ¬(s.1.start ≤ addr.start ∧ addr.stop ≤ s.1.stop)) →
      (L.read_unchecked stream addr).2 = .error Error.OutOfBounds) := by
  rw [read_unchecked_heap L secs wc hm stream addr]
  refine ⟨?_, ?_, ?_⟩
  · intro rel d h
    cases hf : secs.find? (fun s =>
        decide (s.1.start ≤ addr.start ∧ addr.stop ≤ s.1.stop)) with
    | none => rw [hf] at h; simp at h
    | some s0 =>
      rw [hf] at h
      obtain ⟨r, d0⟩ := s0
      simp only [Except.ok.injEq, Prod.mk.injEq] at h
      have hp := List.find?_some hf
      have hmem := List.mem_of_find?_eq_some hf
      simp only [decide_eq_true_eq] at hp
      obtain ⟨hrel, hd⟩ := h
      refine ⟨r, d0, hmem, hp.1, hp.2, hd.symm, hrel.symm, ?_⟩
      subst hd
      rw [← hrel]
      have harith : (addr.stop - r.start) - (addr.start - r.start)
          = addr.stop - addr.start := by omega
      simp only [harith]
  · constructor
    · rintro ⟨s, hs, hs1, hs2⟩
      cases hf : secs.find? (fun s =>
          decide (s.1.start ≤ addr.start ∧ addr.stop ≤ s.1.stop)) with
      | none =>
        exfalso
        have := List.find?_eq_none.mp hf s hs
        simp only [decide_eq_true_eq, not_and] at this
        exact this hs1 hs2
      | some s0 =>
        obtain ⟨r, d0⟩ := s0
        exact ⟨_, rfl⟩
    · rintro ⟨out, hout⟩
      cases hf : secs.find? (fun s =>
          decide (s.1.start ≤ addr.start ∧ addr.stop ≤ s.1.stop)) with
      | none => rw [hf] at hout; simp at hout
      | some s0 =>
        have hp := List.find?_some hf
        have hmem := List.mem_of_find?_eq_some hf
        simp only [decide_eq_true_eq] at hp
        exact ⟨s0, hmem, hp⟩
  · intro hnone
    have hf : secs.find? (fun s =>
        decide (s.1.start ≤ addr.start ∧ addr.stop ≤ s.1.stop)) = none := by
      refine List.find?_eq_none.mpr ?_
      intro s hs
      simp only [decide_eq_true_eq]
      exact hnone s hs
    rw [hf]

/-- C10: whatever section the search inside a successful heap read selects
satisfies the containment predicate, so the two unsigned subtractions
forming the relative range cannot underflow (they invert exactly:
`rel.start + section.start = addr.start` and likewise for the end), and when
the section payload is as long as its range the relative range lies within
`0..payload.length`. -/
theorem read_unchecked_no_underflow (L : Layer) (secs : List LSection)
    (wc : Nat × Nat) (hm : L.mapper = .Heap secs wc) (stream : List Nat)
    (addr : URange) (hab : addr.start ≤ addr.stop) (rel : URange)
    (d : List Nat) (h : (L.read_unchecked stream addr).2 = .ok (rel, d)) :
    ∃ r : URange, ∃ d0 : List Nat, (r, d0) ∈ secs ∧
      r.start ≤ addr.start ∧ addr.stop ≤ r.stop ∧ d = d0 ∧
      rel.start + r.start = addr.start ∧ rel.stop + r.start = addr.stop ∧
      (d0.length = r.stop - r.start →
        rel.start ≤ rel.stop ∧ rel.stop ≤ d0.length) := by
  rw [read_unchecked_heap L secs wc hm stream addr] at h
  cases hf : secs.find? (fun s =>
      decide (s.1.start ≤ addr.start ∧ addr.stop ≤ s.1.stop)) with
  | none => rw [hf] at h; simp at h
  | some s0 =>
    rw [hf] at h
    obtain ⟨r, d0⟩ := s0
    simp only [Except.ok.injEq, Prod.mk.injEq] at h
    have hp := List.find?_some hf
    have hmem := List.mem_of_find?_eq_some hf
    simp only [decide_eq_true_eq] at hp
    obtain ⟨hrel, hd⟩ := h
    refine ⟨r, d0, hmem, hp.1, hp.2, hd.symm, ?_, ?_, ?_⟩
    · rw [← hrel]; show addr.start - r.start + r.start = addr.start; omega
    · rw [← hrel]; show addr.stop - r.start + r.start = addr.stop; omega
    · intro hlen
      rw [← hrel]
      constructor
      · show addr.start - r.start ≤ addr.stop - r.start; omega
      · show addr.stop - r.start ≤ d0.length; omega

/-- C9: collision checking, non-collision computation and unchecked reads on
a heap-backed layer mutate nothing: the layer (bounds, size, cursors and the
stored section collection) comes back unchanged whether the call succeeds or
fails, and the non-collision sweep does not depend on the layer at all. -/
theorem checks_are_read_only (L : Layer) (secs : List LSection)
    (wc : Nat × Nat) (hm : L.mapper = .Heap secs wc) (stream : List Nat)
    (q addr : URange) (cs : List URange) :
    (L.check_collisions stream q).1 = L ∧
    (L.read_unchecked stream addr).1 = L ∧
    (∀ L2 : Layer, L.check_non_collisions q cs = L2.check_non_collisions q cs)
    := by
  refine ⟨?_, ?_, fun _ => rfl⟩
  · unfold Layer.check_collisions
    cases L.bounds with
    | none => rfl
    | some b =>
      simp only
      split
      · rfl
      · cases L.mapper.iter stream L.size REWIND_IDX <;> rfl
  · rw [read_unchecked_heap L secs wc hm stream addr]
    cases secs.find? (fun s =>
        decide (s.1.start ≤ addr.start ∧ addr.stop ≤ s.1.stop)) with
    | none => rfl
    | some s0 => obtain ⟨r, d0⟩ := s0; rfl

theorem write_unchecked_heap (L : Layer) (secs : List LSection)
    (wc : Nat × Nat) (hm : L.mapper = .Heap secs wc) (idx : Nat)
    (data : List Nat) :
    ∃ L2 : Layer, L.write_unchecked idx data = .ok L2 ∧
      L2.size = L.size + data.length ∧
      L2.bounds = some (match L.bounds with
        | some x => ⟨min x.start idx, max x.stop (idx + data.length)⟩
        | none => ⟨idx, idx + data.length⟩) ∧
      (∃ secs2 wc2, L2.mapper = .Heap secs2 wc2) ∧
      L2.read_cursor = L.read_cursor := by
  unfold Layer.write_unchecked
  rw [hm]
  refine ⟨_, rfl, ?_, ?_, ⟨_, _, rfl⟩, rfl⟩
  · show L.size + (idx + data.length - idx) = L.size + data.length
    omega
  · cases L.bounds <;> rfl

/-- Helper: the fold of the bounds updates performed by a sequence of
writes. -/
def boundsFold : Option URange → List (Nat × List Nat) → Option URange
  | b, [] => b
  | b, w :: ws => boundsFold (some (match b with
      | some x => ⟨min x.start w.1, max x.stop (w.1 + w.2.length)⟩
      | none => ⟨w.1, w.1 + w.2.length⟩)) ws

theorem applyWrites_char : ∀ (ws : List (Nat × List Nat)) (L : Layer)
    (secs : List LSection) (wc : Nat × Nat), L.mapper = .Heap secs wc →
    (applyWrites L ws).size = L.size + (ws.map (fun w => w.2.length)).sum ∧
    (applyWrites L ws).bounds = boundsFold L.bounds ws ∧
    (∃ secs2 wc2, (applyWrites L ws).mapper = .Heap secs2 wc2) := by
  intro ws
  induction ws with
  | nil =>
    intro L secs wc hm
    exact ⟨by simp [applyWrites], rfl, ⟨secs, wc, hm⟩⟩
  | cons w ws ih =>
    intro L secs wc hm
    obtain ⟨L2, hw, hsize, hbounds, ⟨secs2, wc2, hm2⟩, _⟩ :=
      write_unchecked_heap L secs wc hm w.1 w.2
    have hstep : applyWrites L (w :: ws) = applyWrites L2 ws := by
      show (match L.write_unchecked w.1 w.2 with
            | .ok L3 => applyWrites L3 ws
            | .error _ => applyWrites L ws) = applyWrites L2 ws
      rw [hw]
    rw [hstep]
    obtain ⟨ihs, ihb, ihm⟩ := ih L2 secs2 wc2 hm2
    refine ⟨?_, ?_, ihm⟩
    · rw [ihs, hsize]
      simp only [List.map_cons, List.sum_cons]
      omega
    · rw [ihb, hbounds]
      rfl

theorem boundsFold_char : ∀ (ws : List (Nat × List Nat)) (m0 M0 : Nat),
    ∃ m M : Nat, boundsFold (some ⟨m0, M0⟩) ws = some ⟨m, M⟩ ∧
      m ≤ m0 ∧ M0 ≤ M ∧
      (∀ w ∈ ws, m ≤ w.1 ∧ w.1 + w.2.length ≤ M) ∧
      (m = m0 ∨ ∃ w ∈ ws, w.1 = m) ∧
      (M = M0 ∨ ∃ w ∈ ws, w.1 + w.2.length = M) := by
  intro ws
  induction ws with
  | nil =>
    intro m0 M0
    exact ⟨m0, M0, rfl, le_refl _, le_refl _, by simp, Or.inl rfl, Or.inl rfl⟩
  | cons w ws ih =>
    intro m0 M0
    obtain ⟨m, M, heq, hm0, hM0, hall, hmw, hMw⟩ :=
      ih (min m0 w.1) (max M0 (w.1 + w.2.length))
    have hstep : boundsFold (some ⟨m0, M0⟩) (w :: ws)
        = boundsFold (some ⟨min m0 w.1, max M0 (w.1 + w.2.length)⟩) ws := rfl
    have hm1 : m ≤ m0 := le_trans hm0 (Nat.min_le_left _ _)
    have hm2 : m ≤ w.1 := le_trans hm0 (Nat.min_le_right _ _)
    have hM1 : M0 ≤ M := le_trans (Nat.le_max_left _ _) hM0
    have hM2 : w.1 + w.2.length ≤ M := le_trans (Nat.le_max_right _ _) hM0
    refine ⟨m, M, by rw [hstep]; exact heq, hm1, hM1, ?_, ?_, ?_⟩
    · intro w2 hw2
      rcases List.mem_cons.mp hw2 with rfl | h2
      · exact ⟨hm2, hM2⟩
      · exact hall w2 h2
    · rcases hmw with heq2 | ⟨w2, hw2, he⟩
      · rcases Nat.le_total m0 w.1 with hc | hc
        · exact Or.inl (heq2.trans (Nat.min_eq_left hc))
        · exact Or.inr ⟨w, List.mem_cons_self w ws,
            (heq2.trans (Nat.min_eq_right hc)).symm⟩
      · exact Or.inr ⟨w2, List.mem_cons_of_mem w hw2, he⟩
    · rcases hMw with heq2 | ⟨w2, hw2, he⟩
      · rcases Nat.le_total M0 (w.1 + w.2.length) with hc | hc
        · exact Or.inr ⟨w, List.mem_cons_self w ws,
            (heq2.trans (Nat.max_eq_right hc)).symm⟩
        · exact Or.inl (heq2.trans (Nat.max_eq_left hc))
      · exact Or.inr ⟨w2, List.mem_cons_of_mem w hw2, he⟩

/-- C4: after a non-empty sequence of writes on a fresh layer, `bounds` is
`some (m..M)` with `m` the least written range start and `M` the greatest
written range end, and `size` is the sum of the written payload lengths (not
the span `M - m`); the fresh layer itself has no bounds and size 0. -/
theorem bounds_size_after_writes (ws : List (Nat × List Nat))
    (hne : ws ≠ []) :
    (∃ m M : Nat, (applyWrites Layer.new ws).bounds = some ⟨m, M⟩ ∧
      (∀ w ∈ ws, m ≤ w.1 ∧ w.1 + w.2.length ≤ M) ∧
      (∃ w ∈ ws, w.1 = m) ∧ (∃ w ∈ ws, w.1 + w.2.length = M)) ∧
    (applyWrites Layer.new ws).size = (ws.map (fun w => w.2.length)).sum ∧
    Layer.new.bounds = none ∧ Layer.new.size = 0 := by
  obtain ⟨hsize, hbounds, _⟩ := applyWrites_char ws Layer.new [] (0, 0) rfl
  cases ws with
  | nil => exact absurd rfl hne
  | cons w ws =>
    have hstep : boundsFold (none : Option URange) (w :: ws)
        = boundsFold (some ⟨w.1, w.1 + w.2.length⟩) ws := rfl
    obtain ⟨m, M, heq, hm0, hM0, hall, hmw, hMw⟩ :=
      boundsFold_char ws w.1 (w.1 + w.2.length)
    refine ⟨⟨m, M, ?_, ?_, ?_, ?_⟩, ?_, rfl, rfl⟩
    · rw [hbounds]
      show boundsFold none (w :: ws) = some ⟨m, M⟩
      rw [hstep, heq]
    · intro w2 hw2
      rcases List.mem_cons.mp hw2 with rfl | h2
      · exact ⟨hm0, hM0⟩
      · exact hall w2 h2
    · rcases hmw with heq2 | ⟨w2, hw2, he⟩
      · exact ⟨w, List.mem_cons_self w ws, heq2.symm⟩
      · exact ⟨w2, List.mem_cons_of_mem w hw2, he⟩
    · rcases hMw with heq2 | ⟨w2, hw2, he⟩
      · exact ⟨w, List.mem_cons_self w ws, heq2.symm⟩
      · exact ⟨w2, List.mem_cons_of_mem w hw2, he⟩
    · rw [hsize]
      show 0 + (List.map (fun w => w.2.length) (w :: ws)).sum = _
      rw [Nat.zero_add]

/-- C7: `load` consumes exactly the first 24 bytes of the stream — its
result only depends on them and no section record is parsed; a stream
shorter than the header fails with the corruption error, and otherwise the
returned layer is disk-backed with `size` the big-endian integer at offset
0 and `bounds` the big-endian integers at offsets 8 and 16. -/
theorem load_spec (bytes : List Nat) :
    (bytes.length < 24 → Layer.load bytes = .error (.DBCorrupt .InvalidLayer)) ∧
    (24 ≤ bytes.length → Layer.load bytes = .ok
      { bounds := some ⟨be64val ((bytes.drop 8).take 8),
          be64val ((bytes.drop 16).take 8)⟩,
        mapper := .Disk, size := be64val (bytes.take 8),
        read_cursor := (0, 0) }) ∧
    Layer.load bytes = Layer.load (bytes.take 24) := by
  refine ⟨?_, ?_, ?_⟩
  · intro h
    unfold Layer.load
    rw [if_pos]
    simp only [List.length_take]
    omega
  · intro h
    have hb : (bytes.take 24).length = 24 := by
      simp only [List.length_take]
      omega
    have h1 : get_u64 (bytes.take 24) 0 8 = .ok (be64val (bytes.take 8)) := by
      unfold get_u64
      rw [if_pos (by omega)]
      rw [List.take_take, List.drop_zero]
      norm_num
    have h2 : get_u64 (bytes.take 24) 8 16
        = .ok (be64val ((bytes.drop 8).take 8)) := by
      unfold get_u64
      rw [if_pos (by omega)]
      rw [List.take_take]
      norm_num
      rw [List.drop_take]
    have h3 : get_u64 (bytes.take 24) 16 24
        = .ok (be64val ((bytes.drop 16).take 8)) := by
      unfold get_u64
      rw [if_pos (by omega)]
      rw [List.take_take]
      norm_num
      rw [List.drop_take]
    unfold Layer.load
    rw [if_neg (by omega)]
    rw [h1, h2, h3]
    rfl
  · unfold Layer.load
    rw [List.take_take]
    norm_num

/-- C8: sharing only an endpoint is never a collision — a section ending
exactly where the query begins fails the half-open overlap filter, so
`check_collisions` never reports it; concretely, after writing `[0,5)` a
zero-length write at address 5 sees no collision, succeeds, lands as a
zero-length section right after the first one, and leaves `size` at 5. -/
theorem boundary_is_not_collision :
    (∀ (q : URange) (a b : Nat), q.start = b →
      collides q ⟨a, b⟩ = false) ∧
    (∃ L1 L2 : Layer,
      Layer.new.write_unchecked 0 [1, 2, 3, 4, 5] = .ok L1 ∧
      (L1.check_collisions [] ⟨5, 5⟩).2 = .ok [] ∧
      L1.write_unchecked 5 [] = .ok L2 ∧
      L2.mapper = .Heap [(⟨0, 5⟩, [1, 2, 3, 4, 5]), (⟨5, 5⟩, [])] (5, 2) ∧
      L2.size = L1.size ∧ L2.size = 5) := by
  constructor
  · intro q a b hq
    simp only [collides, decide_eq_false_iff_not, not_and]
    intro h
    omega
  · refine ⟨⟨some ⟨0, 5⟩, .Heap [(⟨0, 5⟩, [1, 2, 3, 4, 5])] (5, 1), 5, (0, 0)⟩,
      ⟨some ⟨0, 5⟩, .Heap [(⟨0, 5⟩, [1, 2, 3, 4, 5]), (⟨5, 5⟩, [])] (5, 2),
        5, (0, 0)⟩, ?_, ?_, ?_, ?_, ?_, ?_⟩ <;> rfl

/-- C1 is violated by the source: both writes below are proven free by the
collision analysis, yet the fallback index scan of `write_unchecked` —
`find .. unwrap_or(0)` — also yields index 0 when the scan finds no section
starting past the write address on a NON-empty collection, so the second
section is inserted at the front and the collection is no longer sorted
ascending by range start. -/
theorem write_fallback_breaks_sorting :
    ∃ L1 L2 : Layer,
      Layer.new.write_unchecked 0 [9, 9, 9, 9, 9] = .ok L1 ∧
      (L1.check_collisions [] ⟨10, 15⟩).2 = .ok [] ∧
      L1.check_non_collisions ⟨10, 15⟩ [] = [⟨10, 15⟩] ∧
      L1.write_unchecked 10 [7, 7, 7, 7, 7] = .ok L2 ∧
      L2.mapper = .Heap
        [(⟨10, 15⟩, [7, 7, 7, 7, 7]), (⟨0, 5⟩, [9, 9, 9, 9, 9])] (15, 1) ∧
      ¬ List.Pairwise (fun a b : LSection => a.1.start ≤ b.1.start)
        [(⟨10, 15⟩, [7, 7, 7, 7, 7]), (⟨0, 5⟩, [9, 9, 9, 9, 9])] := by
  refine ⟨⟨some ⟨0, 5⟩, .Heap [(⟨0, 5⟩, [9, 9, 9, 9, 9])] (5, 1), 5, (0, 0)⟩,
    ⟨some ⟨0, 15⟩,
      .Heap [(⟨10, 15⟩, [7, 7, 7, 7, 7]), (⟨0, 5⟩, [9, 9, 9, 9, 9])] (15, 1),
      10, (0, 0)⟩, rfl, rfl, rfl, rfl, rfl, ?_⟩
  intro h
  have := (List.pairwise_cons.mp h).1 (⟨0, 5⟩, [9, 9, 9, 9, 9])
    (List.mem_cons_self _ _)
  simp at this

theorem writeChunks_ok : ∀ (cs : List (List Nat)) (s : MStream),
    s.failAt = none → s.pos ≤ s.data.length →
    ∃ s2 : MStream, writeChunks s cs = .ok s2 ∧ s2.failAt = none ∧
      s2.pos = s.pos + cs.flatten.length ∧
      s2.data = s.data.take s.pos ++ cs.flatten
        ++ s.data.drop (s.pos + cs.flatten.length) := by
  intro cs
  induction cs with
  | nil =>
    intro s hf hp
    refine ⟨s, rfl, hf, by simp, ?_⟩
    simp [List.take_append_drop]
  | cons c cs ih =>
    intro s hf hp
    have hw : s.writeAll c =
        .ok ⟨overwriteAt s.data s.pos c, s.pos + c.length, s.ops + 1,
          s.failAt⟩ := by
      unfold MStream.writeAll
      rw [if_neg (by rw [hf]; simp)]
    have hov : overwriteAt s.data s.pos c
        = (s.data.take s.pos ++ c) ++ s.data.drop (s.pos + c.length) := by
      unfold overwriteAt
      rw [Nat.sub_eq_zero_of_le hp]
      simp
    have hlen1 : (s.data.take s.pos ++ c).length = s.pos + c.length := by
      simp only [List.length_append, List.length_take]
      omega
    obtain ⟨s2, hrun, hf2, hp2, hd2⟩ := ih
      ⟨overwriteAt s.data s.pos c, s.pos + c.length, s.ops + 1, s.failAt⟩
      hf (by rw [hov]
             simp only [List.length_append, List.length_take, List.length_drop]
             omega)
    refine ⟨s2, ?_, hf2, ?_, ?_⟩
    · show (match s.writeAll c with
        | Except.error e => (Except.error e : Except Error MStream)
        | Except.ok s1 => writeChunks s1 cs) = Except.ok s2
      rw [hw]
      exact hrun
    · rw [hp2]
      simp only [List.flatten_cons, List.length_append]
      omega
    · rw [hd2]
      simp only [hov]
      rw [List.take_left' hlen1]
      have hdrop : ∀ k : Nat, List.drop (s.pos + c.length + k)
          ((s.data.take s.pos ++ c) ++ s.data.drop (s.pos + c.length))
          = s.data.drop (s.pos + c.length + k) := by
        intro k
        rw [show s.pos + c.length + k = (s.data.take s.pos ++ c).length + k
          by omega]
        rw [← List.drop_drop, List.drop_left]
        rw [List.drop_drop, hlen1]
      rw [hdrop cs.flatten.length]
      simp only [List.flatten_cons, List.length_append, List.append_assoc]
      rw [Nat.add_assoc]

theorem flush_ok_char (L : Layer) (b : URange) (secs : List LSection)
    (wc : Nat × Nat) (hb : L.bounds = some b) (hm : L.mapper = .Heap secs wc)
    (s : MStream) (hfail : s.failAt = none) :
    ∃ s2 : MStream, L.flush s = ({ L with mapper := .Disk }, .ok s2) ∧
      s2.failAt = none ∧
      s2.data = (flushChunks L.size b secs).flatten
        ++ s.data.drop (flushChunks L.size b secs).flatten.length ∧
      s2.pos = (flushChunks L.size b secs).flatten.length := by
  have hrw : s.rewind = .ok ⟨s.data, 0, s.ops + 1, s.failAt⟩ := by
    unfold MStream.rewind
    rw [if_neg (by rw [hfail]; simp)]
  obtain ⟨s1, hrun, hf1, hp1, hd1⟩ := writeChunks_ok
    (flushChunks L.size b secs) ⟨s.data, 0, s.ops + 1, s.failAt⟩
    hfail (by simp)
  have hfb : s1.flushBuf = .ok ⟨s1.data, s1.pos, s1.ops + 1, s1.failAt⟩ := by
    unfold MStream.flushBuf
    rw [if_neg (by rw [hf1]; simp)]
  refine ⟨⟨s1.data, s1.pos, s1.ops + 1, s1.failAt⟩, ?_, hf1, ?_, ?_⟩
  · unfold Layer.flush
    rw [hb, hm]
    simp only
    rw [hrw]
    simp only
    rw [hrun]
    simp only
    rw [hfb]
  · rw [hd1]
    simp
  · rw [hp1]
    simp

/-- The byte image `flush` produces from offset 0: the concatenation of all
its write chunks. -/
def encodedLayer (size : Nat) (b : URange) (secs : List LSection) : List Nat :=
  (flushChunks size b secs).flatten

theorem flatten_map_triples (secs : List LSection) :
    ((secs.map (fun sec =>
        [be64 sec.1.start, be64 sec.1.stop, sec.2])).flatten).flatten
      = (secs.map (fun sec =>
          be64 sec.1.start ++ be64 sec.1.stop ++ sec.2)).flatten := by
  induction secs with
  | nil => rfl
  | cons sec secs ih =>
    simp only [List.map_cons, List.flatten_cons, List.flatten_append] at ih ⊢
    simp [ih, List.append_assoc]

theorem encodedLayer_eq (size : Nat) (b : URange) (secs : List LSection) :
    encodedLayer size b secs
      = be64 size ++ be64 b.start ++ be64 b.stop
        ++ (secs.map (fun sec =>
            be64 sec.1.start ++ be64 sec.1.stop ++ sec.2)).flatten := by
  unfold encodedLayer flushChunks
  rw [List.flatten_append]
  rw [flatten_map_triples]
  simp [List.append_assoc]

/-- C5: flushing a non-empty heap-backed layer writes, from stream offset 0,
exactly the 24-byte header (`size`, `bounds.start`, `bounds.end` as
big-endian 64-bit integers) followed by each stored section — in stored
ascending order — as 8-byte big-endian start, 8-byte big-endian end, then
the raw payload, touching no byte beyond that image, and only then switches
the mapper to disk mode; flushing an empty (`bounds = none`) or already
disk-backed layer succeeds without writing anything. -/
theorem flush_spec (L : Layer) (s : MStream) :
    (∀ (b : URange) (secs : List LSection) (wc : Nat × Nat),
      L.bounds = some b → L.mapper = .Heap secs wc →
      List.Pairwise (fun a c : LSection => a.1.start ≤ c.1.start) secs →
      s.failAt = none →
      ∃ s2 : MStream, L.flush s = ({ L with mapper := .Disk }, .ok s2) ∧
        s2.data.take (encodedLayer L.size b secs).length
          = encodedLayer L.size b secs ∧
        s2.data.drop (encodedLayer L.size b secs).length
          = s.data.drop (encodedLayer L.size b secs).length ∧
        encodedLayer L.size b secs
          = be64 L.size ++ be64 b.start ++ be64 b.stop
            ++ (secs.map (fun sec =>
                be64 sec.1.start ++ be64 sec.1.stop ++ sec.2)).flatten) ∧
    (L.bounds = none → L.flush s = (L, .ok s)) ∧
    (L.mapper = .Disk → L.flush s = (L, .ok s)) := by
  refine ⟨?_, ?_, ?_⟩
  · intro b secs wc hb hm _hsorted hfail
    obtain ⟨s2, hok, _, hd, _⟩ := flush_ok_char L b secs wc hb hm s hfail
    refine ⟨s2, hok, ?_, ?_, encodedLayer_eq L.size b secs⟩
    · rw [hd]
      exact List.take_left' rfl
    · rw [hd]
      exact List.drop_left' rfl
  · intro hb
    unfold Layer.flush
    rw [hb]
  · intro hm
    unfold Layer.flush
    rw [hm]
    cases L.bounds <;> rfl

/-- C6: if any step of `flush` fails, the error is returned with the layer
completely untouched — in particular it is still heap-backed with its
original bounds and size (the mapper is assigned `Disk` only after every
write and the final buffer flush succeed), so retrying `flush` on the same
layer with a healthy stream succeeds and completes the transition. -/
theorem flush_error_keeps_layer (L : Layer) (s : MStream) (L2 : Layer)
    (e : Error) (herr : L.flush s = (L2, .error e)) :
    L2 = L ∧
    (∃ b secs wc, L.bounds = some b ∧ L.mapper = Mapper.Heap secs wc) ∧
    (∀ s3 : MStream, s3.failAt = none →
      ∃ s4 : MStream, L2.flush s3 = ({ L2 with mapper := .Disk }, .ok s4)) := by
  cases hb : L.bounds with
  | none =>
    exfalso
    unfold Layer.flush at herr
    rw [hb] at herr
    cases hm : L.mapper <;> rw [hm] at herr <;> simp at herr
  | some b =>
    cases hm : L.mapper with
    | Disk =>
      exfalso
      unfold Layer.flush at herr
      rw [hb, hm] at herr
      simp at herr
    | Heap secs wc =>
      unfold Layer.flush at herr
      rw [hb, hm] at herr
      simp only at herr
      have hL2 : L2 = L := by
        cases hr : s.rewind with
        | error e2 =>
          rw [hr] at herr
          simp only [Prod.mk.injEq] at herr
          exact herr.1.symm
        | ok s0 =>
          rw [hr] at herr
          simp only at herr
          cases hwc : writeChunks s0 (flushChunks L.size b secs) with
          | error e2 =>
            rw [hwc] at herr
            simp only [Prod.mk.injEq] at herr
            exact herr.1.symm
          | ok s1 =>
            rw [hwc] at herr
            simp only at herr
            cases hfb : s1.flushBuf with
            | error e2 =>
              rw [hfb] at herr
              simp only [Prod.mk.injEq] at herr
              exact herr.1.symm
            | ok s4 =>
              rw [hfb] at herr
              simp at herr
      refine ⟨hL2, ⟨b, secs, wc, rfl, rfl⟩, ?_⟩
      intro s3 hf3
      have hb2 : L2.bounds = some b := by rw [hL2]; exact hb
      have hm2 : L2.mapper = Mapper.Heap secs wc := by rw [hL2]; exact hm
      obtain ⟨s4, hok, _, _, _⟩ := flush_ok_char L2 b secs wc hb2 hm2 s3 hf3
      exact ⟨s4, hok⟩

/-- Witness for C2 at a concrete layer and query. -/
theorem check_collisions_complementarity_witness :
    ((∃ c ∈ ([⟨3, 5⟩] : List URange), URange.mem c 4) ∨
      (∃ n ∈ Layer.check_non_collisions
          ⟨some ⟨0, 5⟩, .Heap [(⟨0, 5⟩, [1, 2, 3, 4, 5])] (5, 1), 5, (0, 0)⟩
          ⟨3, 8⟩ [⟨3, 5⟩], URange.mem n 4)) ↔
      URange.mem ⟨3, 8⟩ 4 :=
  (check_collisions_complementarity
    ⟨some ⟨0, 5⟩, .Heap [(⟨0, 5⟩, [1, 2, 3, 4, 5])] (5, 1), 5, (0, 0)⟩
    [(⟨0, 5⟩, [1, 2, 3, 4, 5])] (5, 1) rfl (by decide) (by decide)
    [] ⟨3, 8⟩ (by decide) [⟨3, 5⟩] rfl).1 4

/-- Witness for C3 at a concrete layer and read range. -/
theorem read_unchecked_spec_witness :
    (∃ s ∈ ([(⟨0, 5⟩, [1, 2, 3, 4, 5])] : List LSection),
      s.1.start ≤ 2 ∧ 3 ≤ s.1.stop) ↔
    ∃ out, (Layer.read_unchecked
        ⟨some ⟨0, 5⟩, .Heap [(⟨0, 5⟩, [1, 2, 3, 4, 5])] (5, 1), 5, (0, 0)⟩
        [] ⟨2, 3⟩).2 = .ok out :=
  (read_unchecked_spec
    ⟨some ⟨0, 5⟩, .Heap [(⟨0, 5⟩, [1, 2, 3, 4, 5])] (5, 1), 5, (0, 0)⟩
    [(⟨0, 5⟩, [1, 2, 3, 4, 5])] (5, 1) rfl [] ⟨2, 3⟩ (by decide)).2.1

/-- Witness for C4 at a concrete write sequence. -/
theorem bounds_size_after_writes_witness :
    (applyWrites Layer.new [(0, [1, 2, 3]), (10, [4, 5])]).size
      = (([(0, [1, 2, 3]), (10, [4, 5])] : List (Nat × List Nat)).map
          (fun w => w.2.length)).sum :=
  (bounds_size_after_writes [(0, [1, 2, 3]), (10, [4, 5])] (by decide)).2.1

/-- Witness for C5: a concrete non-empty heap layer flushed through a
healthy stream. -/
theorem flush_spec_witness :
    ∃ s2 : MStream,
      Layer.flush
        ⟨some ⟨0, 3⟩, .Heap [(⟨0, 3⟩, [7, 8, 9])] (3, 1), 3, (0, 0)⟩
        ⟨[], 0, 0, none⟩
      = ({ (⟨some ⟨0, 3⟩, .Heap [(⟨0, 3⟩, [7, 8, 9])] (3, 1), 3,
            (0, 0)⟩ : Layer) with mapper := .Disk }, .ok s2) ∧
      s2.data.take (encodedLayer 3 ⟨0, 3⟩ [(⟨0, 3⟩, [7, 8, 9])]).length
        = encodedLayer 3 ⟨0, 3⟩ [(⟨0, 3⟩, [7, 8, 9])] ∧
      s2.data.drop (encodedLayer 3 ⟨0, 3⟩ [(⟨0, 3⟩, [7, 8, 9])]).length
        = ([] : List Nat).drop
            (encodedLayer 3 ⟨0, 3⟩ [(⟨0, 3⟩, [7, 8, 9])]).length ∧
      encodedLayer 3 ⟨0, 3⟩ [(⟨0, 3⟩, [7, 8, 9])]
        = be64 3 ++ be64 0 ++ be64 3
          ++ (([(⟨0, 3⟩, [7, 8, 9])] : List LSection).map (fun sec =>
              be64 sec.1.start ++ be64 sec.1.stop ++ sec.2)).flatten :=
  (flush_spec ⟨some ⟨0, 3⟩, .Heap [(⟨0, 3⟩, [7, 8, 9])] (3, 1), 3, (0, 0)⟩
    ⟨[], 0, 0, none⟩).1 ⟨0, 3⟩ [(⟨0, 3⟩, [7, 8, 9])] (3, 1) rfl rfl
    (by decide) rfl

/-- Witness for C6: a stream whose very first operation fails. -/
theorem flush_error_keeps_layer_witness :
    (⟨some ⟨0, 3⟩, .Heap [(⟨0, 3⟩, [7, 8, 9])] (3, 1), 3, (0, 0)⟩ : Layer)
      = ⟨some ⟨0, 3⟩, .Heap [(⟨0, 3⟩, [7, 8, 9])] (3, 1), 3, (0, 0)⟩ ∧
    (∃ b secs wc,
      (⟨some ⟨0, 3⟩, .Heap [(⟨0, 3⟩, [7, 8, 9])] (3, 1), 3,
        (0, 0)⟩ : Layer).bounds = some b ∧
      (⟨some ⟨0, 3⟩, .Heap [(⟨0, 3⟩, [7, 8, 9])] (3, 1), 3,
        (0, 0)⟩ : Layer).mapper = Mapper.Heap secs wc) ∧
    (∀ s3 : MStream, s3.failAt = none →
      ∃ s4 : MStream,
        Layer.flush
          ⟨some ⟨0, 3⟩, .Heap [(⟨0, 3⟩, [7, 8, 9])] (3, 1), 3, (0, 0)⟩ s3
        = ({ (⟨some ⟨0, 3⟩, .Heap [(⟨0, 3⟩, [7, 8, 9])] (3, 1), 3,
              (0, 0)⟩ : Layer) with mapper := .Disk }, .ok s4)) :=
  flush_error_keeps_layer
    ⟨some ⟨0, 3⟩, .Heap [(⟨0, 3⟩, [7, 8, 9])] (3, 1), 3, (0, 0)⟩
    ⟨[], 0, 0, some 0⟩
    ⟨some ⟨0, 3⟩, .Heap [(⟨0, 3⟩, [7, 8, 9])] (3, 1), 3, (0, 0)⟩ .Io rfl

/-- Witness for C7: a short stream and a full 24-byte header. -/
theorem load_spec_witness :
    Layer.load [1, 2, 3] = .error (.DBCorrupt .InvalidLayer) ∧
    Layer.load (List.replicate 24 0) = .ok
      { bounds := some ⟨be64val (((List.replicate 24 0).drop 8).take 8),
          be64val (((List.replicate 24 0).drop 16).take 8)⟩,
        mapper := .Disk, size := be64val ((List.replicate 24 0).take 8),
        read_cursor := (0, 0) } :=
  ⟨(load_spec [1, 2, 3]).1 (by decide),
   (load_spec (List.replicate 24 0)).2.1 (by decide)⟩

/-- Witness for C8: the section `[0,5)` against a query starting at 5. -/
theorem boundary_is_not_collision_witness :
    collides ⟨5, 9⟩ ⟨0, 5⟩ = false :=
  boundary_is_not_collision.1 ⟨5, 9⟩ 0 5 rfl

/-- Witness for C9 at a concrete heap layer. -/
theorem checks_are_read_only_witness :
    (Layer.check_collisions
      ⟨some ⟨0, 5⟩, .Heap [(⟨0, 5⟩, [1, 2, 3, 4, 5])] (5, 1), 5, (0, 0)⟩
      [] ⟨0, 2⟩).1
      = ⟨some ⟨0, 5⟩, .Heap [(⟨0, 5⟩, [1, 2, 3, 4, 5])] (5, 1), 5, (0, 0)⟩ ∧
    (Layer.read_unchecked
      ⟨some ⟨0, 5⟩, .Heap [(⟨0, 5⟩, [1, 2, 3, 4, 5])] (5, 1), 5, (0, 0)⟩
      [] ⟨0, 2⟩).1
      = ⟨some ⟨0, 5⟩, .Heap [(⟨0, 5⟩, [1, 2, 3, 4, 5])] (5, 1), 5, (0, 0)⟩ ∧
    (∀ L2 : Layer,
      Layer.check_non_collisions
        ⟨some ⟨0, 5⟩, .Heap [(⟨0, 5⟩, [1, 2, 3, 4, 5])] (5, 1), 5, (0, 0)⟩
        ⟨0, 2⟩ []
      = L2.check_non_collisions ⟨0, 2⟩ []) :=
  checks_are_read_only
    ⟨some ⟨0, 5⟩, .Heap [(⟨0, 5⟩, [1, 2, 3, 4, 5])] (5, 1), 5, (0, 0)⟩
    [(⟨0, 5⟩, [1, 2, 3, 4, 5])] (5, 1) rfl [] ⟨0, 2⟩ ⟨0, 2⟩ []

/-- Witness for C10 at a concrete successful read. -/
theorem read_unchecked_no_underflow_witness :
    ∃ r : URange, ∃ d0 : List Nat,
      (r, d0) ∈ ([(⟨0, 5⟩, [1, 2, 3, 4, 5])] : List LSection) ∧
      r.start ≤ 2 ∧ 4 ≤ r.stop ∧ ([1, 2, 3, 4, 5] : List Nat) = d0 ∧
      (2 : Nat) + r.start = 2 ∧ (4 : Nat) + r.start = 4 ∧
      (d0.length = r.stop - r.start → (2 : Nat) ≤ 4 ∧ 4 ≤ d0.length) :=
  read_unchecked_no_underflow
    ⟨some ⟨0, 5⟩, .Heap [(⟨0, 5⟩, [1, 2, 3, 4, 5])] (5, 1), 5, (0, 0)⟩
    [(⟨0, 5⟩, [1, 2, 3, 4, 5])] (5, 1) rfl [] ⟨2, 4⟩ (by decide)
    ⟨2, 4⟩ [1, 2, 3, 4, 5] rfl
